import Mathlib

/-!
A shallow embedding of the core of `src/app.py` (SearchBox, a one-file local
BM25 search engine) together with proofs about its behaviour.

Modelling conventions:
* Python strings are modelled as `List Char`; `str.lower` is modelled
  per-character by `Char.toLower`, which agrees with Python on ASCII (all
  tokens produced by the tokenizer are ASCII alphanumeric).
* Python floats are modelled as real numbers (`ℝ`); IEEE rounding is out of
  scope, as is the display-only `round(s, 4)` applied to scores.
* Dictionaries with counting values (`freq`, `df`) are modelled as total
  functions `Term → ℕ` where membership (`t in freq`) corresponds to a
  non-zero value: the Python code only ever stores strictly positive counts.
* A build pass (`BM25Index.reindex`) iterates over files.  Inside its
  per-file `try` block the only operation that can actually raise is
  `os.path.getmtime(path)` (`read_text` swallows every exception internally
  and falls back to `""`).  A file is therefore modelled as a `FileEntry`
  carrying the decoded text (`none` when every read attempt failed, in which
  case `read_text` returns `""`) and an optional mtime (`none` when
  `os.path.getmtime` raised, aborting that file's iteration after the
  document-frequency table was already updated).
-/

namespace SearchBox

/-- Terms and texts are lists of characters. -/
abbrev Term := List Char

/-- `TOKEN_RE = re.compile(r"[A-Za-z0-9]+")`: ASCII alphanumeric characters. -/
def isTokenChar (c : Char) : Bool :=
  ('A' ≤ c && c ≤ 'Z') || ('a' ≤ c && c ≤ 'z') || ('0' ≤ c && c ≤ '9')

/-- Splits a text into the maximal runs of token characters, in order:
`TOKEN_RE.findall(text)`.  The accumulator holds the current run reversed. -/
def findTokens (acc : List Char) : List Char → List (List Char)
  | [] => if acc = [] then [] else [acc.reverse]
  | c :: cs =>
    if isTokenChar c then findTokens (c :: acc) cs
    else if acc = [] then findTokens [] cs
    else acc.reverse :: findTokens [] cs

/-- `tokenize(text)`: every maximal alphanumeric run, lowercased. -/
def tokenize (text : List Char) : List Term :=
  (findTokens [] text).map (List.map Char.toLower)

/-- One file presented to a build pass.  `raw = none` models a file whose
every read attempt raised (Python's `read_text` then returns `""`);
`mtime = none` models `os.path.getmtime` raising, which aborts that file's
loop iteration via the `except Exception: continue` handler. -/
structure FileEntry where
  path : List Char
  raw : Option (List Char)
  mtime : Option Int
deriving Repr, DecidableEq

/-- The text the build actually sees for a file (`read_text` fallback). -/
def FileEntry.text (e : FileEntry) : List Char := e.raw.getD []

/-- `os.path.basename` for forward-slash paths. -/
def basename (p : List Char) : List Char :=
  (p.reverse.takeWhile (fun c => c != '/')).reverse

/-- One indexed document, as stored in `self.docs`. -/
structure Doc where
  id : ℕ
  path : List Char
  title : List Char
  text : List Char
  len : ℕ
  mtime : Int
deriving Repr, DecidableEq, Inhabited

/-- The mutable state `reindex` accumulates: `self.docs`, `self.df`,
`self.tf` (kept positionally aligned with `docs`). -/
structure BuildState where
  docs : List Doc
  df : Term → ℕ
  tf : List (Term → ℕ)

/-- The per-document frequency dictionary `freq`. -/
def countTokens (toks : List Term) : Term → ℕ := fun t => toks.count t

/-- `for term in freq.keys(): self.df[term] += 1`. -/
def bumpDf (df freq : Term → ℕ) : Term → ℕ :=
  fun t => if freq t = 0 then df t else df t + 1

/-- The body of the `for i, path in enumerate(walk_docs(...))` loop.  The
document-frequency table is updated before `os.path.getmtime` is evaluated,
so a file whose mtime lookup raises still leaves its marks in `df` while
contributing neither a document nor a term-frequency table. -/
def buildStep (i : ℕ) (st : BuildState) (e : FileEntry) : BuildState :=
  let toks := tokenize e.text
  let freq := countTokens toks
  let df2 := bumpDf st.df freq
  match e.mtime with
  | none => ⟨st.docs, df2, st.tf⟩
  | some m =>
      ⟨st.docs ++ [⟨i, e.path, basename e.path, e.text, toks.length, m⟩],
       df2, st.tf ++ [freq]⟩

/-- The whole loop, threading the enumeration index `i`. -/
def buildGo (i : ℕ) (st : BuildState) : List FileEntry → BuildState
  | [] => st
  | e :: es => buildGo (i + 1) (buildStep i st e) es

/-- The computable part of `BM25Index.reindex`. -/
def buildCore (es : List FileEntry) : BuildState :=
  buildGo 0 ⟨[], fun _ => 0, []⟩ es

/-- An index snapshot: the fields of `BM25Index` a query reads. -/
structure Snapshot where
  docs : List Doc
  df : Term → ℕ
  tf : List (Term → ℕ)
  avgdl : ℝ
  idf : Term → ℝ

/-- `N = len(self.docs) or 1`. -/
def clampedN (st : BuildState) : ℕ := max st.docs.length 1

/-- `BM25Index.reindex`: runs the build loop, then derives
`avgdl = sum(d["len"] for d in docs)/N` and the BM25 idf table
`idf[term] = log((N - df + 0.5)/(df + 0.5) + 1.0)` (only terms with a
`df` entry get an `idf` entry; `score` reads it with `.get(t, 0.0)`,
which the 0-branch models). -/
noncomputable def reindex (es : List FileEntry) : Snapshot :=
  let st := buildCore es
  let N : ℕ := clampedN st
  { docs := st.docs
    df := st.df
    tf := st.tf
    avgdl := (st.docs.map (fun d => (d.len : ℝ))).sum / (N : ℝ)
    idf := fun t =>
      if st.df t = 0 then 0
      else Real.log (((N : ℝ) - (st.df t : ℝ) + 0.5) / ((st.df t : ℝ) + 0.5) + 1) }

/-- `k1 = 1.5` (default tuning constant, never overridden). -/
def bm25K1 : ℝ := 1.5

/-- `b = 0.75` (default tuning constant, never overridden). -/
def bm25B : ℝ := 0.75

/-- `BM25Index.score(q_terms, doc_idx)`: for each query term present in the
document's frequency table, add
`idf * (tf * (k1 + 1)) / (tf + k1 * (1 - b + b * dl / avgdl))` with
`dl = d["len"] or 1`.  Out-of-range indices (which would raise in Python and
are never produced by `search`) read defaults. -/
noncomputable def score (snap : Snapshot) (qTerms : List Term) (docIdx : ℕ) : ℝ :=
  let d := snap.docs.getD docIdx default
  let freq := snap.tf.getD docIdx (fun _ => 0)
  (qTerms.map (fun t =>
    if freq t = 0 then 0
    else
      let tf : ℝ := (freq t : ℝ)
      let dl : ℝ := (max d.len 1 : ℕ)
      snap.idf t * (tf * (bm25K1 + 1)) /
        (tf + bm25K1 * (1 - bm25B + bm25B * dl / snap.avgdl)))).sum

/-!  Snippets (`first_hit_span`, `make_snippet`). -/

/-- Lowercasing a whole string, per character (`text.lower()`; agrees with
Python on ASCII and is length-preserving). -/
def lowerStr (s : List Char) : List Char := s.map Char.toLower

/-- `low.find(t)`: the least index at which `t` occurs as a contiguous
substring (`some 0` for the empty pattern), `none` when absent — a
left-to-right scan, exactly Python's `str.find`. -/
def strFind (pat : List Char) : List Char → Option ℕ
  | [] => if pat.isPrefixOf [] then some 0 else none
  | c :: cs =>
    if pat.isPrefixOf (c :: cs) then some 0
    else (strFind pat cs).map (· + 1)

/-- `first_hit_span(text, terms)`: the minimum over the terms that occur in
the lowercased text of their first-occurrence index, `0` if none occurs. -/
def first_hit_span (text : List Char) (terms : List Term) : ℕ :=
  let low := lowerStr text
  let positions := terms.filterMap (fun t => strFind t low)
  positions.min?.getD 0

/-- One character of `html.escape` (quote=True): the sequential `.replace`
chain is equivalent to this independent per-character map. -/
def escapeChar (c : Char) : List Char :=
  if c = '&' then "&amp;".data
  else if c = '<' then "&lt;".data
  else if c = '>' then "&gt;".data
  else if c = '"' then "&quot;".data
  else if c = '\'' then "&#x27;".data
  else [c]

/-- `html.escape(chunk)`. -/
def htmlEscape (s : List Char) : List Char := (s.map escapeChar).flatten

/-- `\w` of Python's `re` restricted to ASCII (all inputs here are ASCII). -/
def isWordChar (c : Char) : Bool := isTokenChar c || c = '_'

/-- Lowercase ASCII letters and digits — the character class of every term
`tokenize` can produce. -/
def isLowerAlnum (c : Char) : Bool := ('a' ≤ c && c ≤ 'z') || ('0' ≤ c && c ≤ '9')

/-- The word-boundary test `\b` before a match: start of string or a
non-word character precedes. -/
def boundaryOk (prev : Option Char) : Bool :=
  match prev with
  | none => true
  | some c => !isWordChar c

/-- Case-insensitive literal match of `t` against a prefix of `s`
(`(?i)` + `re.escape(t)`). -/
def matchCI (t : Term) (s : List Char) : Bool :=
  (s.take t.length).map Char.toLower == t.map Char.toLower

/-- The word-boundary test `\b` after a match: end of string or a non-word
character follows. -/
def boundaryAfter (rest : List Char) : Bool :=
  match rest with
  | [] => true
  | c :: _ => !isWordChar c

/-- `re.sub(fr"(?i)\b({re.escape(t)})\b", r"<mark>\1</mark>", s)` for a
non-empty pattern `t`: scan left to right; at each position, if `t` matches
case-insensitively between word boundaries, wrap the matched original
characters in mark tags and continue after the match (non-overlapping,
exactly `re.sub`'s scan); `prev` is the character preceding the current
position in the original string.  For `t = []` (never produced by
`tokenize`) the scan changes nothing. -/
def subWordGo (t : Term) : ℕ → Option Char → List Char → List Char
  | 0, _, s => s
  | _ + 1, _, [] => []
  | fuel + 1, prev, c :: cs =>
    if t ≠ [] ∧ boundaryOk prev = true ∧ matchCI t (c :: cs) = true ∧
        boundaryAfter (List.drop t.length (c :: cs)) = true then
      let matched := List.take t.length (c :: cs)
      "<mark>".data ++ matched ++ "</mark>".data ++
        subWordGo t fuel matched.getLast? (List.drop t.length (c :: cs))
    else c :: subWordGo t fuel (some c) cs

/-- One substitution pass over the whole string.  The fuel only bounds the
recursion depth: every step consumes at least one character (the matched
pattern is non-empty), so `s.length` steps always reach the end of the
string and the fuel-exhausted branch is never taken. -/
def subWord (t : Term) (s : List Char) : List Char := subWordGo t s.length none s

/-- Stable insertion into a length-descending list of terms. -/
def insertByLen (x : Term) : List Term → List Term
  | [] => [x]
  | y :: ys => if y.length < x.length then x :: y :: ys else y :: insertByLen x ys

/-- `sorted(…, key=len, reverse=True)` as a stable descending sort (left
fold of insert-after-equals). -/
def sortByLenDesc (l : List Term) : List Term :=
  l.foldl (fun acc x => insertByLen x acc) []

/-- The highlighting loop of `make_snippet`: one `re.sub` pass per distinct
term, longest first.  Python iterates `sorted(set(terms), key=len,
reverse=True)`; set iteration order is unspecified, so we fix first
occurrence order among equal lengths (`dedup` keeps first occurrences). -/
def highlightAll (terms : List Term) (s : List Char) : List Char :=
  (sortByLenDesc terms.dedup).foldl (fun acc t => subWord t acc) s

/-- `make_snippet(text, terms, width)`: window of `width` characters around
the first hit, escaped, highlighted, with ellipsis markers at clipped
boundaries.  `start = max(0, pos - width//4)` is truncated ℕ subtraction;
`text[start:stop]` is drop-then-take. -/
def make_snippet (text : List Char) (terms : List Term) (width : ℕ) : List Char :=
  let pos := first_hit_span text terms
  let start := pos - width / 4
  let stop := min text.length (start + width)
  let chunk := (text.drop start).take (stop - start)
  let esc := htmlEscape chunk
  let hl := highlightAll terms esc
  let pre := if 0 < start then ['…'] else []
  let suf := if stop < text.length then ['…'] else []
  pre ++ hl ++ suf

/-!  Search (`BM25Index.search`). -/

/-- The width `search` passes to `make_snippet`. -/
def searchSnippetWidth : ℕ := 240

/-- The default result limit of `search`. -/
def defaultLimit : ℕ := 20

/-- One search result record (the dict built by `search`).  The score is
kept exact: the display-only `round(float(s), 4)` operates on IEEE floats
and is not modelled; likewise `os.path.relpath(path, root)` is an opaque
path operation, so the stored absolute path stands in for it. -/
structure SBResult where
  title : List Char
  path : List Char
  score : ℝ
  snippet : List Char
  mtime : Int

/-- The candidate list `scores`: `(s, i)` for each document index `i` in
enumeration order whose score is strictly positive. -/
noncomputable def searchScores (snap : Snapshot) (qTerms : List Term) : List (ℝ × ℕ) :=
  (List.range snap.docs.length).filterMap (fun i =>
    if 0 < score snap qTerms i then some (score snap qTerms i, i) else none)

/-- Stable insertion into a score-descending list: the new element goes
after every element with an equal or larger score. -/
noncomputable def insertDesc (x : ℝ × ℕ) : List (ℝ × ℕ) → List (ℝ × ℕ)
  | [] => [x]
  | y :: ys => if y.1 < x.1 then x :: y :: ys else y :: insertDesc x ys

/-- `scores.sort(reverse=True, key=lambda x: x[0])`: CPython's sort is
stable, and a stable descending sort is computed exactly by a left fold of
insert-after-equals. -/
noncomputable def sortDesc (l : List (ℝ × ℕ)) : List (ℝ × ℕ) :=
  l.foldl (fun acc x => insertDesc x acc) []

/-- `scores[:limit]` after sorting. -/
noncomputable def searchRanked (snap : Snapshot) (qTerms : List Term) (limit : ℕ) :
    List (ℝ × ℕ) :=
  (sortDesc (searchScores snap qTerms)).take limit

/-- The result record built for a ranked pair. -/
noncomputable def toResult (snap : Snapshot) (qTerms : List Term) (p : ℝ × ℕ) : SBResult :=
  let d := snap.docs.getD p.2 default
  { title := d.title
    path := d.path
    score := p.1
    snippet := make_snippet d.text qTerms searchSnippetWidth
    mtime := d.mtime }

/-- `BM25Index.search(query, limit)` evaluated against one snapshot (the
snapshot current after the `maybe_reindex` staleness check; the locking
behaviour of that call chain is modelled separately below). -/
noncomputable def search (snap : Snapshot) (query : List Char) (limit : ℕ) :
    List SBResult :=
  let qTerms := tokenize query
  if qTerms = [] then []
  else (searchRanked snap qTerms limit).map (toResult snap qTerms)

/-!  The locking discipline (`threading.Lock`, non-reentrant).

`search` wraps its scoring loop in `with self.lock:` and calls
`self.score(...)` inside it, and `score` itself begins with
`with self.lock:`.  We record the sequence of acquire/release events each
call path performs on `self.lock` and interpret it under non-reentrant
single-thread semantics: acquiring a lock already held blocks forever. -/

inductive LockOp where
  | acquire
  | release
deriving Repr, DecidableEq

/-- Runs a trace of operations on one non-reentrant lock from the unheld
state; `false` means the thread blocks (acquire while held) or faults
(release while unheld) before reaching the end. -/
def traceCompletes : Bool → List LockOp → Bool
  | _, [] => true
  | true, .acquire :: _ => false
  | false, .acquire :: ops => traceCompletes true ops
  | true, .release :: ops => traceCompletes false ops
  | false, .release :: _ => false

/-- `BM25Index.score` body: `with self.lock: ...`. -/
def scoreLockTrace : List LockOp := [.acquire, .release]

/-- `BM25Index.maybe_reindex` body: one `with self.lock:` block (the
snapshot comparison), then possibly `reindex` (its own block) after
release. -/
def maybeReindexLockTrace (stale : Bool) : List LockOp :=
  [.acquire, .release] ++ (if stale then [.acquire, .release] else [])

/-- `BM25Index.search` body: the `maybe_reindex` call, then, unless the
tokenized query is empty, `with self.lock:` around a loop that calls
`score` once per document. -/
def searchLockTrace (stale : Bool) (qTermsEmpty : Bool) (numDocs : ℕ) : List LockOp :=
  maybeReindexLockTrace stale ++
    (if qTermsEmpty then []
     else [.acquire] ++ (List.replicate numDocs scoreLockTrace).flatten ++ [.release])

/-!  Auxiliary definitions used by the statements below. -/

/-- The document the loop body constructs for enumeration index `i`,
entry `e`, and a successful mtime lookup `m`. -/
def docOfEntry (i : ℕ) (e : FileEntry) (m : Int) : Doc :=
  ⟨i, e.path, basename e.path, e.text, (tokenize e.text).length, m⟩

/-- Per the spec: the documents of a build are exactly those files whose
processing ran to completion, in enumeration order, keeping their
enumeration index as id. -/
def builtDocs (i0 : ℕ) (es : List FileEntry) : List Doc :=
  (List.enumFrom i0 es).filterMap (fun p => p.2.mtime.map (fun m => docOfEntry p.1 p.2 m))

/-- Per the spec: the term-frequency tables of a build, one per completed
file, positionally aligned with `builtDocs`. -/
def builtTf (es : List FileEntry) : List (Term → ℕ) :=
  (es.filter (fun e => e.mtime.isSome)).map (fun e => countTokens (tokenize e.text))

/-- How many documents of a snapshot contain term `t` (their
term-frequency table has a positive entry for `t`). -/
def docsContaining (tf : List (Term → ℕ)) (t : Term) : ℕ :=
  tf.countP (fun fr => fr t != 0)

/-- The deterministic result order: strictly larger score first, ties by
ascending document id. -/
def rankOrder (x y : ℝ × ℕ) : Prop :=
  y.1 < x.1 ∨ (x.1 = y.1 ∧ x.2 < y.2)

/-- The idf formula of `reindex` as a function of the clamped document
count and a (real) document frequency. -/
noncomputable def idfFormula (N : ℕ) (dfv : ℝ) : ℝ :=
  Real.log (((N : ℝ) - dfv + 0.5) / (dfv + 0.5) + 1)

/-- A one-file corpus whose single document reads as "a". -/
def singleACorpus : List FileEntry := [⟨"a.txt".data, some "a".data, some 0⟩]

/-- A pathological build input: three files are read as "a" but then fail
at the `os.path.getmtime` step (deleted between read and stat), one file
succeeds.  The build records `df("a") = 4` against a single stored
document, exceeding the snapshot's document count. -/
def poisonedCorpus : List FileEntry :=
  [⟨"1".data, some "a".data, none⟩, ⟨"2".data, some "a".data, none⟩,
   ⟨"3".data, some "a".data, none⟩, ⟨"4".data, some "a".data, some 0⟩]

/-!  Theorems. -/

lemma reindex_docs (es : List FileEntry) : (reindex es).docs = (buildCore es).docs := rfl

lemma reindex_tf (es : List FileEntry) : (reindex es).tf = (buildCore es).tf := rfl

lemma reindex_df (es : List FileEntry) : (reindex es).df = (buildCore es).df := rfl

lemma reindex_avgdl (es : List FileEntry) :
    (reindex es).avgdl =
      ((buildCore es).docs.map (fun d => (d.len : ℝ))).sum / (clampedN (buildCore es) : ℝ) := rfl

lemma reindex_idf (es : List FileEntry) (t : Term) :
    (reindex es).idf t =
      if (buildCore es).df t = 0 then 0
      else idfFormula (clampedN (buildCore es)) ((buildCore es).df t) := rfl

lemma buildGo_docs (es : List FileEntry) :
    ∀ (i : ℕ) (st : BuildState), (buildGo i st es).docs = st.docs ++ builtDocs i es := by
  induction es with
  | nil => intro i st; simp [buildGo, builtDocs, List.enumFrom]
  | cons e es ih =>
    intro i st
    cases hm : e.mtime with
    | none =>
      simp [buildGo, ih, buildStep, hm, builtDocs, List.enumFrom]
    | some m =>
      simp [buildGo, ih, buildStep, hm, builtDocs, List.enumFrom, docOfEntry, FileEntry.text]

lemma buildGo_tf (es : List FileEntry) :
    ∀ (i : ℕ) (st : BuildState), (buildGo i st es).tf = st.tf ++ builtTf es := by
  induction es with
  | nil => intro i st; simp [buildGo, builtTf]
  | cons e es ih =>
    intro i st
    cases hm : e.mtime with
    | none => simp [buildGo, ih, buildStep, hm, builtTf]
    | some m => simp [buildGo, ih, buildStep, hm, builtTf, countTokens, FileEntry.text]

lemma buildCore_docs (es : List FileEntry) : (buildCore es).docs = builtDocs 0 es := by
  simpa [buildCore] using buildGo_docs es 0 ⟨[], fun _ => 0, []⟩

lemma buildCore_tf (es : List FileEntry) : (buildCore es).tf = builtTf es := by
  simpa [buildCore] using buildGo_tf es 0 ⟨[], fun _ => 0, []⟩

/-- The documents and frequency tables stay positionally aligned, and a
document whose table mentions any term has a positive token count. -/
lemma builtDocs_forall₂ (es : List FileEntry) :
    ∀ i0 : ℕ, List.Forall₂ (fun (d : Doc) (fr : Term → ℕ) => ∀ t, fr t ≠ 0 → 0 < d.len)
      (builtDocs i0 es) (builtTf es) := by
  induction es with
  | nil => intro i0; simp [builtDocs, builtTf, List.enumFrom]
  | cons e es ih =>
    intro i0
    cases hm : e.mtime with
    | none => simpa [builtDocs, builtTf, List.enumFrom, hm] using ih (i0 + 1)
    | some m =>
      simp only [builtDocs, builtTf, List.enumFrom, List.filterMap_cons, List.filter_cons, hm,
        Option.map_some, Option.isSome_some, if_true, List.map_cons]
      refine List.Forall₂.cons ?_ (by simpa [builtDocs, builtTf] using ih (i0 + 1))
      intro t ht
      have : t ∈ tokenize e.text := by
        by_contra hmem
        exact ht (by simpa [countTokens, List.count_eq_zero] using hmem)
      have : tokenize e.text ≠ [] := by
        intro hnil; rw [hnil] at this; exact absurd this (List.not_mem_nil t)
      simpa [docOfEntry] using List.length_pos.2 this

/-- C6 (amended): a build never aborts, and its documents are exactly the
files whose processing ran to completion, in enumeration order — a file
whose mtime lookup raised is skipped (no document, no frequency table),
while a file whose reads all failed still yields a document with empty
text.  The frequency tables are aligned one-to-one with the documents. -/
theorem build_documents_exactly_completed_files (es : List FileEntry) :
    (buildCore es).docs = builtDocs 0 es ∧ (buildCore es).tf = builtTf es ∧
    (buildCore es).docs.length = (buildCore es).tf.length := by
  refine ⟨buildCore_docs es, buildCore_tf es, ?_⟩
  rw [buildCore_docs, buildCore_tf]
  exact (builtDocs_forall₂ es 0).length_eq

/-- C10: whenever a query term is found in a document's term-frequency
table, that document has at least one token, so the token-count sum is
positive and `avgdl` is strictly positive — the division by `avgdl`
inside `score` never divides by zero. -/
theorem avgdl_positive_when_term_found (es : List FileEntry) (i : ℕ) (t : Term)
    (h : ((reindex es).tf.getD i (fun _ => 0)) t ≠ 0) : 0 < (reindex es).avgdl := by
  rw [reindex_tf, buildCore_tf] at h
  rw [reindex_avgdl]
  have hfa := builtDocs_forall₂ es 0
  have hlen := hfa.length_eq
  by_cases hi : i < (builtTf es).length
  · have hi2 : i < (builtDocs 0 es).length := by omega
    rw [List.getD_eq_getElem _ _ hi] at h
    have hget := (List.forall₂_iff_get.1 hfa).2 i hi2 hi
    have hdlen : 0 < ((builtDocs 0 es).get ⟨i, hi2⟩).len := hget t h
    have hmem : (((builtDocs 0 es).get ⟨i, hi2⟩).len : ℝ) ∈
        ((buildCore es).docs.map (fun d => (d.len : ℝ))) := by
      rw [buildCore_docs]
      exact List.mem_map_of_mem _ (List.get_mem _ _ hi2)
    have hsum : (((builtDocs 0 es).get ⟨i, hi2⟩).len : ℝ) ≤
        ((buildCore es).docs.map (fun d => (d.len : ℝ))).sum :=
      List.single_le_sum (by
        intro x hx
        obtain ⟨d, _, rfl⟩ := List.mem_map.1 hx
        positivity) _ hmem
    have hpos : (0 : ℝ) < ((buildCore es).docs.map (fun d => (d.len : ℝ))).sum :=
      lt_of_lt_of_le (by exact_mod_cast hdlen) hsum
    have hN : (0 : ℝ) < (clampedN (buildCore es) : ℝ) := by
      have : 0 < clampedN (buildCore es) := by
        simp [clampedN]
      exact_mod_cast this
    exact div_pos hpos hN
  · rw [List.getD_eq_default _ _ (by omega)] at h
    exact absurd rfl h

lemma avgdl_nonneg (es : List FileEntry) : 0 ≤ (reindex es).avgdl := by
  rw [reindex_avgdl]
  apply div_nonneg
  · apply List.sum_nonneg
    intro x hx
    obtain ⟨d, _, rfl⟩ := List.mem_map.1 hx
    positivity
  · positivity

lemma idf_nonneg (es : List FileEntry) (t : Term)
    (h : (buildCore es).df t ≤ (buildCore es).docs.length) : 0 ≤ (reindex es).idf t := by
  rw [reindex_idf]
  split
  · exact le_refl 0
  · rename_i hdf
    have hN : (buildCore es).df t ≤ clampedN (buildCore es) :=
      le_trans h (le_max_left _ _)
    apply Real.log_nonneg
    have hnum : (0 : ℝ) ≤ (clampedN (buildCore es) : ℝ) - ((buildCore es).df t : ℝ) + 0.5 := by
      have : ((buildCore es).df t : ℝ) ≤ (clampedN (buildCore es) : ℝ) := by exact_mod_cast hN
      linarith
    have hden : (0 : ℝ) < ((buildCore es).df t : ℝ) + 0.5 := by positivity
    have := div_nonneg hnum (le_of_lt hden)
    linarith

lemma idfFormula_strictAnti (N : ℕ) (d1 d2 : ℝ) (h0 : 0 ≤ d1) (h12 : d1 < d2) :
    idfFormula N d2 < idfFormula N d1 := by
  have key : ∀ d : ℝ, 0 ≤ d →
      ((N : ℝ) - d + 0.5) / (d + 0.5) + 1 = ((N : ℝ) + 1) / (d + 0.5) := by
    intro d hd
    have hne : d + 0.5 ≠ 0 := by positivity
    field_simp
    ring
  unfold idfFormula
  rw [key d1 h0, key d2 (le_trans h0 (le_of_lt h12))]
  have hN1 : (0 : ℝ) < (N : ℝ) + 1 := by positivity
  have h1 : (0 : ℝ) < d1 + 0.5 := by positivity
  have h2 : (0 : ℝ) < d2 + 0.5 := by linarith
  exact Real.log_lt_log (div_pos hN1 h2) (div_lt_div_of_pos_left hN1 h1 (by linarith))

lemma score_nonneg (snap : Snapshot) (q : List Term) (i : ℕ)
    (hidf : ∀ t ∈ q, 0 ≤ snap.idf t) (havg : 0 ≤ snap.avgdl) : 0 ≤ score snap q i := by
  unfold score
  apply List.sum_nonneg
  intro x hx
  obtain ⟨t, ht, rfl⟩ := List.mem_map.1 hx
  split
  · exact le_refl 0
  · have htf : (0 : ℝ) ≤ ((snap.tf.getD i (fun _ => 0)) t : ℝ) := by positivity
    have hdl : (0 : ℝ) ≤ ((max (snap.docs.getD i default).len 1 : ℕ) : ℝ) := by positivity
    have hfrac : (0 : ℝ) ≤ bm25B * ((max (snap.docs.getD i default).len 1 : ℕ) : ℝ) / snap.avgdl :=
      div_nonneg (mul_nonneg (by norm_num [bm25B]) hdl) havg
    have hden : (0 : ℝ) ≤ ((snap.tf.getD i (fun _ => 0)) t : ℝ) +
        bm25K1 * (1 - bm25B + bm25B * ((max (snap.docs.getD i default).len 1 : ℕ) : ℝ) / snap.avgdl) := by
      have hin : (0 : ℝ) ≤ 1 - bm25B +
          bm25B * ((max (snap.docs.getD i default).len 1 : ℕ) : ℝ) / snap.avgdl := by
        norm_num [bm25B] at hfrac ⊢
        linarith
      have := mul_nonneg (by norm_num [bm25K1] : (0:ℝ) ≤ bm25K1) hin
      linarith
    exact div_nonneg (mul_nonneg (hidf t ht) (mul_nonneg htf (by norm_num [bm25K1]))) hden

/-- C2 (amended): for every term with a df entry, the snapshot's idf is
exactly the BM25 idf formula evaluated at the clamped document count
`N = max(count, 1)`; it is non-negative whenever `df(t)` is at most the
snapshot's document count; and, holding `N` fixed, the formula is strictly
decreasing in the document frequency. -/
theorem idf_formula_nonneg_and_strict_decrease (es : List FileEntry) (t : Term) :
    ((buildCore es).df t ≠ 0 →
      (reindex es).idf t = idfFormula (clampedN (buildCore es)) ((buildCore es).df t))
    ∧ ((buildCore es).df t ≤ (buildCore es).docs.length → 0 ≤ (reindex es).idf t)
    ∧ (∀ (N : ℕ) (d1 d2 : ℝ), 0 ≤ d1 → d1 < d2 → idfFormula N d2 < idfFormula N d1) := by
  refine ⟨?_, idf_nonneg es t, fun N d1 d2 h0 h12 => idfFormula_strictAnti N d1 d2 h0 h12⟩
  intro h
  rw [reindex_idf, if_neg h]

/-- Witness for C2 on the one-document corpus, with the strict-decrease
part instantiated at `N = 1`, `df` from 1 to 2. -/
theorem idf_formula_witness :
    ((buildCore singleACorpus).df "a".data ≠ 0 ∧
      (reindex singleACorpus).idf "a".data =
        idfFormula (clampedN (buildCore singleACorpus)) ((buildCore singleACorpus).df "a".data)) ∧
    ((buildCore singleACorpus).df "a".data ≤ (buildCore singleACorpus).docs.length ∧
      0 ≤ (reindex singleACorpus).idf "a".data) ∧
    ((0 : ℝ) ≤ 1 ∧ (1 : ℝ) < 2 ∧ idfFormula 1 2 < idfFormula 1 1) :=
  ⟨⟨by decide, (idf_formula_nonneg_and_strict_decrease singleACorpus "a".data).1 (by decide)⟩,
   ⟨by decide, (idf_formula_nonneg_and_strict_decrease singleACorpus "a".data).2.1 (by decide)⟩,
   ⟨by norm_num, by norm_num,
    (idf_formula_nonneg_and_strict_decrease singleACorpus "a".data).2.2 1 1 2 (by norm_num) (by norm_num)⟩⟩

/-- C2 (counterexample): after the pathological build, the indexed term
"a" has `df = 4` against one stored document and its idf is negative, so
"idf is non-negative for all indexed terms" fails as stated. -/
theorem idf_negative_after_partial_failures :
    (reindex poisonedCorpus).idf "a".data < 0 := by
  have h4 : (buildCore poisonedCorpus).df "a".data = 4 := by decide
  have hN : clampedN (buildCore poisonedCorpus) = 1 := by decide
  have harg : (reindex poisonedCorpus).idf "a".data = Real.log (4 / 9) := by
    rw [reindex_idf, h4, hN]
    norm_num [idfFormula]
  rw [harg]
  exact Real.log_neg (by norm_num) (by norm_num)

/-- C1 (amended): the score of a document is the sum, over the query
terms present in its term-frequency table, of
`idf(t) * tf(t) * (k1 + 1) / (tf(t) + k1 * (1 - b + b * dl / avgdl))`
with `k1 = 1.5`, `b = 0.75` and the token count clamped to at least 1;
absent terms contribute 0 (no lookup occurs), the result is 0 when no
query term occurs in the document, and it is non-negative provided every
query term's stored document frequency is at most the snapshot's document
count (always true unless a file failed after its term counts were
recorded). -/
theorem score_formula_spec (es : List FileEntry) (q : List Term) (i : ℕ) :
    score (reindex es) q i =
      (q.map (fun t =>
        if ((reindex es).tf.getD i (fun _ => 0)) t = 0 then 0
        else (reindex es).idf t *
            ((((reindex es).tf.getD i (fun _ => 0)) t : ℝ) * (1.5 + 1)) /
          ((((reindex es).tf.getD i (fun _ => 0)) t : ℝ) +
            1.5 * (1 - 0.75 + 0.75 * ((max ((reindex es).docs.getD i default).len 1 : ℕ) : ℝ) /
              (reindex es).avgdl)))).sum
    ∧ ((∀ t ∈ q, (buildCore es).df t ≤ (buildCore es).docs.length) →
        0 ≤ score (reindex es) q i)
    ∧ ((∀ t ∈ q, ((reindex es).tf.getD i (fun _ => 0)) t = 0) →
        score (reindex es) q i = 0) := by
  refine ⟨by simp [score, bm25K1, bm25B], ?_, ?_⟩
  · intro h
    exact score_nonneg (reindex es) q i (fun t ht => idf_nonneg es t (h t ht)) (avgdl_nonneg es)
  · intro h
    unfold score
    apply List.sum_eq_zero
    intro x hx
    obtain ⟨t, ht, rfl⟩ := List.mem_map.1 hx
    simp [h t ht]

/-- Witness for C1: on the one-document corpus, the query "a" gets a
non-negative score and the query "z" (absent everywhere) scores exactly
zero. -/
theorem score_formula_witness :
    ((∀ t ∈ [("a".data : Term)],
        (buildCore singleACorpus).df t ≤ (buildCore singleACorpus).docs.length) ∧
      0 ≤ score (reindex singleACorpus) ["a".data] 0) ∧
    ((∀ t ∈ [("z".data : Term)],
        ((reindex singleACorpus).tf.getD 0 (fun _ => 0)) t = 0) ∧
      score (reindex singleACorpus) ["z".data] 0 = 0) :=
  ⟨⟨by decide, (score_formula_spec singleACorpus ["a".data] 0).2.1 (by decide)⟩,
   ⟨by decide, (score_formula_spec singleACorpus ["z".data] 0).2.2 (by decide)⟩⟩

/-- C1 (counterexample): after the pathological build (three files read
as "a" failing at the mtime step, one surviving document containing "a"),
scoring the query "a" against the surviving document yields the negative
value `log(4/9)`, so "the result is non-negative" fails on the code as
stated. -/
theorem score_negative_after_partial_failures :
    score (reindex poisonedCorpus) ["a".data] 0 < 0 := by
  have htf : ((reindex poisonedCorpus).tf.getD 0 (fun _ => 0)) "a".data = 1 := by decide
  have hlen : ((reindex poisonedCorpus).docs.getD 0 default).len = 1 := by decide
  have h4 : (buildCore poisonedCorpus).df "a".data = 4 := by decide
  have hN : clampedN (buildCore poisonedCorpus) = 1 := by decide
  have hidf : (reindex poisonedCorpus).idf "a".data = Real.log (4 / 9) := by
    rw [reindex_idf, h4, hN]
    norm_num [idfFormula]
  have havg : (reindex poisonedCorpus).avgdl = 1 := by
    have hdocs : (buildCore poisonedCorpus).docs = [⟨3, "4".data, "4".data, "a".data, 1, 0⟩] := by
      decide
    rw [reindex_avgdl, hdocs, hN]
    norm_num
  have hscore : score (reindex poisonedCorpus) ["a".data] 0 = Real.log (4 / 9) := by
    simp only [score, List.map_cons, List.map_nil, List.sum_cons, List.sum_nil, htf, hlen,
      hidf, havg]
    norm_num [bm25K1, bm25B]
  rw [hscore]
  exact Real.log_neg (by norm_num) (by norm_num)

lemma findTokens_eq_nil (s : List Char) (h : ∀ c ∈ s, isTokenChar c = false) :
    findTokens [] s = [] := by
  induction s with
  | nil => simp [findTokens]
  | cons c cs ih =>
    have hc := h c (List.mem_cons_self c cs)
    simp only [findTokens, hc, Bool.false_eq_true, if_false, if_pos rfl]
    exact ih (fun d hd => h d (List.mem_cons_of_mem c hd))

/-- C5: a query with no alphanumeric character — in particular the empty
and the whitespace-only query — or more generally any query that
tokenizes to no terms, returns the empty result list against every
snapshot and every limit. -/
theorem empty_query_yields_no_results (snap : Snapshot) (query : List Char) (limit : ℕ)
    (h : (∀ c ∈ query, isTokenChar c = false) ∨ tokenize query = []) :
    search snap query limit = [] := by
  have hq : tokenize query = [] := by
    cases h with
    | inl h => unfold tokenize; rw [findTokens_eq_nil query h]; rfl
    | inr h => exact h
  unfold search
  simp [hq]

/-- Witness for C5 at the empty and the three-space query. -/
theorem empty_query_witness :
    (∀ c ∈ "   ".data, isTokenChar c = false) ∧
    search (reindex []) "   ".data 20 = [] ∧
    search (reindex []) "".data 20 = [] :=
  ⟨by decide,
   empty_query_yields_no_results (reindex []) "   ".data 20 (Or.inl (by decide)),
   empty_query_yields_no_results (reindex []) "".data 20 (Or.inl (by decide))⟩

lemma mem_insertDesc (x a : ℝ × ℕ) (l : List (ℝ × ℕ)) :
    a ∈ insertDesc x l ↔ a = x ∨ a ∈ l := by
  induction l with
  | nil => simp [insertDesc]
  | cons y ys ih =>
    unfold insertDesc
    split
    · simp
    · simp [ih]
      tauto

lemma mem_foldl_insertDesc (l : List (ℝ × ℕ)) :
    ∀ (acc : List (ℝ × ℕ)) (a : ℝ × ℕ),
      a ∈ l.foldl (fun acc x => insertDesc x acc) acc ↔ a ∈ acc ∨ a ∈ l := by
  induction l with
  | nil => simp
  | cons x xs ih =>
    intro acc a
    rw [List.foldl_cons, ih]
    simp [mem_insertDesc]
    tauto

lemma insertDesc_pairwise (x : ℝ × ℕ) (l : List (ℝ × ℕ))
    (hl : l.Pairwise rankOrder) (hid : ∀ y ∈ l, y.2 < x.2) :
    (insertDesc x l).Pairwise rankOrder := by
  induction l with
  | nil => simp [insertDesc, List.pairwise_cons]
  | cons y ys ih =>
    rcases List.pairwise_cons.1 hl with ⟨hy, hys⟩
    unfold insertDesc
    split
    · rename_i hlt
      refine List.pairwise_cons.2 ⟨?_, hl⟩
      intro z hz
      rcases List.mem_cons.1 hz with rfl | hz
      · exact Or.inl hlt
      · rcases hy z hz with h1 | ⟨h1, _⟩
        · exact Or.inl (lt_trans h1 hlt)
        · exact Or.inl (h1 ▸ hlt)
    · rename_i hnlt
      refine List.pairwise_cons.2 ⟨?_, ih hys (fun z hz => hid z (List.mem_cons_of_mem y hz))⟩
      intro z hz
      rcases (mem_insertDesc x z ys).1 hz with rfl | hz2
      · rcases lt_or_eq_of_le (not_lt.1 hnlt) with h1 | h1
        · exact Or.inl h1
        · exact Or.inr ⟨h1.symm, hid y (List.mem_cons_self y ys)⟩
      · exact hy z hz2

lemma sortDesc_pairwise_core :
    ∀ (l acc : List (ℝ × ℕ)), acc.Pairwise rankOrder →
      (∀ y ∈ acc, ∀ x ∈ l, y.2 < x.2) → l.Pairwise (fun a b => a.2 < b.2) →
      (l.foldl (fun acc x => insertDesc x acc) acc).Pairwise rankOrder := by
  intro l
  induction l with
  | nil => intro acc h _ _; simpa using h
  | cons x xs ih =>
    intro acc hacc hcross hl
    rw [List.foldl_cons]
    rcases List.pairwise_cons.1 hl with ⟨hx, hxs⟩
    apply ih
    · exact insertDesc_pairwise x acc hacc (fun y hy => hcross y hy x (List.mem_cons_self x xs))
    · intro y hy z hz
      rcases (mem_insertDesc x y acc).1 hy with rfl | hy2
      · exact hx z hz
      · exact hcross y hy2 z (List.mem_cons_of_mem x hz)
    · exact hxs

lemma searchScores_ids (snap : Snapshot) (q : List Term) :
    (searchScores snap q).Pairwise (fun a b => a.2 < b.2) := by
  unfold searchScores
  rw [List.pairwise_filterMap]
  apply List.Pairwise.imp ?_ (List.pairwise_lt_range _)
  intro i j hij b hb b2 hb2
  have hbi : b.2 = i := by
    by_cases hc : 0 < score snap q i
    · simp [hc] at hb
      rw [← hb]
    · simp [hc] at hb
  have hbj : b2.2 = j := by
    by_cases hc : 0 < score snap q j
    · simp [hc] at hb2
      rw [← hb2]
    · simp [hc] at hb2
  rw [hbi, hbj]
  exact hij

lemma mem_searchScores (snap : Snapshot) (q : List Term) (p : ℝ × ℕ) :
    p ∈ searchScores snap q ↔
      (p.2 < snap.docs.length ∧ p.1 = score snap q p.2 ∧ 0 < p.1) := by
  unfold searchScores
  rw [List.mem_filterMap]
  constructor
  · rintro ⟨i, hi, hf⟩
    rw [List.mem_range] at hi
    by_cases hc : 0 < score snap q i
    · simp [hc] at hf
      rw [← hf]
      exact ⟨hi, rfl, hc⟩
    · simp [hc] at hf
  · rintro ⟨hlen, hsc, hpos⟩
    refine ⟨p.2, List.mem_range.2 hlen, ?_⟩
    rw [if_pos (hsc ▸ hpos)]
    cases p
    simp only at hsc
    rw [← hsc]

/-- C4: `search` returns the positively-scored documents, sorted by score
descending with ties broken by ascending document id (Python's stable
descending sort over the list built in ascending-id order), truncated to
at most `limit` entries, each mapped to its result record; the default
limit is 20. -/
theorem search_ranking_spec (snap : Snapshot) (query : List Char) (limit : ℕ) :
    search snap query limit =
      (if tokenize query = [] then []
       else (searchRanked snap (tokenize query) limit).map (toResult snap (tokenize query)))
    ∧ (sortDesc (searchScores snap (tokenize query))).Pairwise rankOrder
    ∧ (∀ p : ℝ × ℕ, p ∈ sortDesc (searchScores snap (tokenize query)) ↔
        (p.2 < snap.docs.length ∧ p.1 = score snap (tokenize query) p.2 ∧ 0 < p.1))
    ∧ searchRanked snap (tokenize query) limit =
        (sortDesc (searchScores snap (tokenize query))).take limit
    ∧ (searchRanked snap (tokenize query) limit).length ≤ limit
    ∧ defaultLimit = 20 := by
  refine ⟨rfl, ?_, ?_, rfl, List.length_take_le _ _, rfl⟩
  · unfold sortDesc
    exact sortDesc_pairwise_core _ [] (by simp) (by simp) (searchScores_ids snap _)
  · intro p
    unfold sortDesc
    rw [mem_foldl_insertDesc]
    simp [mem_searchScores]

lemma strFind_spec_some (pat : List Char) :
    ∀ (s : List Char) (p : ℕ), strFind pat s = some p →
      pat <+: s.drop p ∧ ∀ q < p, ¬ pat <+: s.drop q := by
  intro s
  induction s with
  | nil =>
    intro p hp
    unfold strFind at hp
    split at hp
    · rename_i hpre
      injection hp with h
      subst h
      exact ⟨by simpa using List.isPrefixOf_iff_prefix.1 hpre, fun q hq => absurd hq (by omega)⟩
    · cases hp
  | cons c cs ih =>
    intro p hp
    unfold strFind at hp
    split at hp
    · rename_i hpre
      injection hp with h
      subst h
      exact ⟨by simpa using List.isPrefixOf_iff_prefix.1 hpre, fun q hq => absurd hq (by omega)⟩
    · rename_i hnpre
      obtain ⟨p0, h0, hp0⟩ := Option.map_eq_some'.1 hp
      subst hp0
      obtain ⟨hocc, hleast⟩ := ih p0 h0
      refine ⟨by simpa [List.drop_succ_cons] using hocc, ?_⟩
      intro q hq
      cases q with
      | zero =>
        intro hcon
        exact hnpre (List.isPrefixOf_iff_prefix.2 (by simpa using hcon))
      | succ q0 =>
        have := hleast q0 (by omega)
        simpa [List.drop_succ_cons] using this

lemma strFind_spec_none (pat : List Char) :
    ∀ (s : List Char), strFind pat s = none → ∀ p, ¬ pat <+: s.drop p := by
  intro s
  induction s with
  | nil =>
    intro hn p hocc
    unfold strFind at hn
    split at hn
    · cases hn
    · rename_i hnpre
      have : pat = [] := List.prefix_nil.1 (by simpa using hocc)
      subst this
      exact hnpre (by simp [List.isPrefixOf])
  | cons c cs ih =>
    intro hn p hocc
    unfold strFind at hn
    split at hn
    · cases hn
    · rename_i hnpre
      have hcs := Option.map_eq_none'.1 hn
      cases p with
      | zero => exact hnpre (List.isPrefixOf_iff_prefix.2 (by simpa using hocc))
      | succ p0 => exact ih hcs p0 (by simpa [List.drop_succ_cons] using hocc)

/-- C7: the snippet window is anchored at the least index where any query
term occurs in the lowercased text (0 when no term occurs), its start
pulls a quarter-window of context before the hit clamped to the start of
the text, its end is clamped to the end of the text, and an ellipsis is
prefixed exactly when the window does not start at the beginning and
suffixed exactly when it does not reach the end; `search` uses width
240. -/
theorem snippet_window_spec (text : List Char) (terms : List Term) (width : ℕ) :
    ((∃ t ∈ terms, t <+: (lowerStr text).drop (first_hit_span text terms)) ∨
      ((∀ t ∈ terms, ∀ p, ¬ t <+: (lowerStr text).drop p) ∧ first_hit_span text terms = 0))
    ∧ (∀ t ∈ terms, ∀ p, t <+: (lowerStr text).drop p → first_hit_span text terms ≤ p)
    ∧ make_snippet text terms width =
        (if 0 < first_hit_span text terms - width / 4 then ['…'] else []) ++
        highlightAll terms (htmlEscape
          ((text.drop (first_hit_span text terms - width / 4)).take
            (min text.length (first_hit_span text terms - width / 4 + width) -
              (first_hit_span text terms - width / 4)))) ++
        (if min text.length (first_hit_span text terms - width / 4 + width) < text.length
         then ['…'] else [])
    ∧ searchSnippetWidth = 240 := by
  have hfhs : first_hit_span text terms =
      ((terms.filterMap (fun t => strFind t (lowerStr text))).min?).getD 0 := rfl
  refine ⟨?_, ?_, rfl, rfl⟩
  · cases hmin : (terms.filterMap (fun t => strFind t (lowerStr text))).min? with
    | none =>
      have hall : ∀ t ∈ terms, strFind t (lowerStr text) = none :=
        List.filterMap_eq_nil_iff.1 (List.min?_eq_none_iff.1 hmin)
      refine Or.inr ⟨fun t ht p => strFind_spec_none t _ (hall t ht) p, ?_⟩
      rw [hfhs, hmin]
      rfl
    | some m =>
      have hm := ((List.min?_eq_some_iff (fun a => Nat.le_refl a) (fun a b => min_choice a b)
        (fun a b c => le_min_iff)).1 hmin).1
      obtain ⟨t, ht, hf⟩ := List.mem_filterMap.1 hm
      refine Or.inl ⟨t, ht, ?_⟩
      rw [hfhs, hmin]
      exact (strFind_spec_some t _ m hf).1
  · intro t ht p hocc
    cases hmin : (terms.filterMap (fun t => strFind t (lowerStr text))).min? with
    | none =>
      exact absurd hocc (strFind_spec_none t _
        (List.filterMap_eq_nil_iff.1 (List.min?_eq_none_iff.1 hmin) t ht) p)
    | some m =>
      rw [hfhs, hmin]
      show m ≤ p
      have hne : strFind t (lowerStr text) ≠ none :=
        fun hn => strFind_spec_none t _ hn p hocc
      obtain ⟨p0, hp0⟩ := Option.ne_none_iff_exists'.1 hne
      have hmem : p0 ∈ terms.filterMap (fun t => strFind t (lowerStr text)) :=
        List.mem_filterMap.2 ⟨t, ht, hp0⟩
      have hmle := ((List.min?_eq_some_iff (fun a => Nat.le_refl a) (fun a b => min_choice a b)
        (fun a b c => le_min_iff)).1 hmin).2 p0 hmem
      have hp0le : p0 ≤ p := by
        by_contra hlt
        exact (strFind_spec_some t _ p0 hp0).2 p (by omega) hocc
      omega

/-- Witness for C7: in `xyzabc` with terms `abc` and `yz`, the term `yz`
occurs at offset 1, so the window anchor is at most 1. -/
theorem snippet_window_witness :
    ("yz".data <+: (lowerStr "xyzabc".data).drop 1) ∧
    first_hit_span "xyzabc".data ["abc".data, "yz".data] ≤ 1 :=
  ⟨by decide,
   (snippet_window_spec "xyzabc".data ["abc".data, "yz".data] 240).2.1 "yz".data
     (by decide) 1 (by decide)⟩

/-- Witness for C10 at a concrete one-document corpus. -/
theorem avgdl_positive_witness :
    ((reindex [⟨"a.txt".data, some "a".data, some 0⟩]).tf.getD 0 (fun _ => 0)) "a".data ≠ 0 ∧
    0 < (reindex [⟨"a.txt".data, some "a".data, some 0⟩]).avgdl :=
  ⟨by decide, avgdl_positive_when_term_found _ 0 "a".data (by decide)⟩

/-- C3 (supporting evaluation): a file that fails at the
`os.path.getmtime` step — e.g. deleted between the read and the stat —
has already bumped the document-frequency table, yet contributes no
document: after this one-file build, `df("a") = 1` while the snapshot has
no documents at all, so `df` does not equal the number of snapshot
documents containing the term (and exceeds the document count). -/
theorem df_overcounts_after_mtime_failure :
    (buildCore [⟨"a.txt".data, some "a".data, none⟩]).df "a".data = 1 ∧
    (buildCore [⟨"a.txt".data, some "a".data, none⟩]).docs = [] ∧
    docsContaining (buildCore [⟨"a.txt".data, some "a".data, none⟩]).tf "a".data = 0 := by
  refine ⟨by decide, by decide, by decide⟩

/-- C6 (counterexample): a file whose every read attempt raised (so the
Loader step failed and `read_text` fell back to `""`) is not skipped: it
still contributes a document — with empty text and zero tokens — to the
snapshot. -/
theorem read_failure_still_contributes_document :
    (buildCore [⟨"p.txt".data, none, some 0⟩]).docs =
      [⟨0, "p.txt".data, "p.txt".data, [], 0, 0⟩] ∧
    (buildCore [⟨"p.txt".data, none, some 0⟩]).docs.length = 1 := by
  refine ⟨by decide, by decide⟩

/-- C9 (supporting evaluation): `search` holds `self.lock` around its
scoring loop and `score` re-acquires the same non-reentrant
`threading.Lock`, so any query whose token list is non-empty against a
snapshot with at least one document blocks forever; the call only
completes when the tokenized query is empty (early return before the
lock) or the corpus is empty (the loop body never runs). -/
theorem search_lock_self_deadlock :
    traceCompletes false (searchLockTrace false false 1) = false ∧
    traceCompletes false (searchLockTrace true false 3) = false ∧
    traceCompletes false (searchLockTrace false true 3) = true ∧
    traceCompletes false (searchLockTrace false false 0) = true := by decide

lemma char_le_iff (a c : Char) : a ≤ c ↔ a.toNat ≤ c.toNat := by
  rw [Char.le_def, UInt32.le_def]
  exact Iff.rfl

lemma toLower_eq_self_of_not_word (c : Char) (h : isWordChar c = false) : c.toLower = c := by
  unfold Char.toLower
  rw [if_neg]
  intro hc
  have h1 : 'A' ≤ c := (char_le_iff _ _).2 hc.1
  have h2 : c ≤ 'Z' := (char_le_iff _ _).2 hc.2
  have : isTokenChar c = true := by simp [isTokenChar, h1, h2]
  simp [isWordChar, this] at h

lemma toLower_eq_self_of_lowerAlnum (c : Char) (h : isLowerAlnum c = true) : c.toLower = c := by
  unfold Char.toLower
  rw [if_neg]
  intro hc
  rcases (by simpa [isLowerAlnum, Bool.or_eq_true, Bool.and_eq_true, decide_eq_true_eq] using h :
      ('a' ≤ c ∧ c ≤ 'z') ∨ ('0' ≤ c ∧ c ≤ '9')) with ⟨h1, _⟩ | ⟨_, h2⟩
  · have := (char_le_iff 'a' c).1 h1
    have hz : ('a').toNat = 97 := rfl
    omega
  · have := (char_le_iff c '9').1 h2
    have hz : ('9').toNat = 57 := rfl
    omega

lemma word_of_lowerAlnum (c : Char) (h : isLowerAlnum c = true) : isWordChar c = true := by
  simp only [isLowerAlnum, Bool.or_eq_true, Bool.and_eq_true, decide_eq_true_eq] at h
  rcases h with ⟨h1, h2⟩ | ⟨h1, h2⟩ <;> simp [isWordChar, isTokenChar, h1, h2]

/-- One `re.sub` pass wraps a whole-token occurrence: if the string
decomposes as `u ++ t' ++ v` where `t'` matches the (non-empty,
lowercase-alphanumeric) pattern case-insensitively, `u` is empty or ends
in a non-word character, and `v` is empty or starts with a non-word
character, then the scan emits `<mark> t' </mark>` somewhere in its
output. -/
lemma subWordGo_marks (t t' v : List Char)
    (ht : t ≠ []) (htl : t.all isLowerAlnum = true)
    (hci : t'.map Char.toLower = t.map Char.toLower)
    (hv : v = [] ∨ ∃ c cs, v = c :: cs ∧ isWordChar c = false) :
    ∀ (n : ℕ) (u : List Char) (prev : Option Char),
      (u ++ t' ++ v).length ≤ n →
      (u = [] → boundaryOk prev = true) →
      (∀ z, u.getLast? = some z → isWordChar z = false) →
      ("<mark>".data ++ t' ++ "</mark>".data) <:+: subWordGo t n prev (u ++ t' ++ v) := by
  have htlen : t'.length = t.length := by
    have := congrArg List.length hci
    simpa using this
  have ht' : t' ≠ [] := by
    intro h
    subst h
    simp at htlen
    exact ht (List.length_eq_zero.1 htlen.symm)
  intro n
  induction n with
  | zero =>
    intro u prev hlen _ _
    exfalso
    have htpos : 0 < t'.length := List.length_pos.2 ht'
    rw [List.length_append, List.length_append] at hlen
    omega
  | succ n ih =>
    intro u prev hlen hb hz
    cases u with
    | nil =>
      obtain ⟨tc, tcs, rfl⟩ : ∃ tc tcs, t' = tc :: tcs := by
        cases t' with
        | nil => exact absurd rfl ht'
        | cons a b => exact ⟨a, b, rfl⟩
      simp only [List.nil_append, List.cons_append]
      have htake0 : List.take t.length (tc :: (tcs ++ v)) = tc :: tcs := by
        rw [show tc :: (tcs ++ v) = (tc :: tcs) ++ v by simp, ← htlen]
        exact List.take_left _ _
      have hdrop0 : List.drop t.length (tc :: (tcs ++ v)) = v := by
        rw [show tc :: (tcs ++ v) = (tc :: tcs) ++ v by simp, ← htlen]
        exact List.drop_left _ _
      have hcond : t ≠ [] ∧ boundaryOk prev = true ∧ matchCI t (tc :: (tcs ++ v)) = true ∧
          boundaryAfter (List.drop t.length (tc :: (tcs ++ v))) = true := by
        refine ⟨ht, hb rfl, ?_, ?_⟩
        · unfold matchCI
          rw [htake0, hci]
          simp
        · rw [hdrop0]
          rcases hv with rfl | ⟨c, cs, rfl, hc⟩
          · simp [boundaryAfter]
          · simp [boundaryAfter, hc]
      simp only [subWordGo]
      rw [if_pos hcond, htake0]
      exact ⟨[], subWordGo t n (tc :: tcs).getLast? (List.drop t.length (tc :: (tcs ++ v))),
        by simp [List.append_assoc]⟩
    | cons c u2 =>
      simp only [List.cons_append, List.append_assoc] at hlen ⊢
      obtain ⟨z, hzlast⟩ : ∃ z, (c :: u2).getLast? = some z :=
        ⟨(c :: u2).getLast (by simp), List.getLast?_eq_getLast _ (by simp)⟩
      have hzw : isWordChar z = false := hz z hzlast
      have hzmem0 : z ∈ (c :: u2) := by
        rw [List.getLast?_eq_getLast _ (by simp)] at hzlast
        injection hzlast with h
        rw [← h]
        exact List.getLast_mem (by simp)
      by_cases hcond : t ≠ [] ∧ boundaryOk prev = true ∧
          matchCI t (c :: (u2 ++ (t' ++ v))) = true ∧
          boundaryAfter (List.drop t.length (c :: (u2 ++ (t' ++ v)))) = true
      · -- a match fires here: it must lie strictly inside `c :: u2`
        have hmatch : (List.take t.length (c :: (u2 ++ (t' ++ v)))).map Char.toLower =
            t.map Char.toLower := by
          have := hcond.2.2.1
          unfold matchCI at this
          simpa using this
        have hklt : t.length < (c :: u2).length := by
          by_contra hge
          push_neg at hge
          have hpre : (c :: u2) <+: List.take t.length (c :: (u2 ++ (t' ++ v))) := by
            rw [show c :: (u2 ++ (t' ++ v)) = (c :: u2) ++ (t' ++ v) by simp,
              List.take_append_eq_append_take, List.take_of_length_le hge]
            exact List.prefix_append _ _
          have hzmem : z ∈ List.take t.length (c :: (u2 ++ (t' ++ v))) :=
            List.IsPrefix.mem hzmem0 hpre
          have hmm2 : Char.toLower z ∈ t.map Char.toLower := by
            rw [← hmatch]
            exact List.mem_map_of_mem _ hzmem
          obtain ⟨w, hw, hww⟩ := List.mem_map.1 hmm2
          have hwl : isLowerAlnum w = true := List.all_eq_true.1 htl w hw
          have hzw2 : z = w :=
            calc z = z.toLower := (toLower_eq_self_of_not_word z hzw).symm
            _ = w.toLower := hww.symm
            _ = w := toLower_eq_self_of_lowerAlnum w hwl
          rw [hzw2, word_of_lowerAlnum w hwl] at hzw
          cases hzw
        have hcons : (c :: u2).length = u2.length + 1 := by simp
        have htake : List.take t.length (c :: (u2 ++ (t' ++ v))) =
            List.take t.length (c :: u2) := by
          rw [show c :: (u2 ++ (t' ++ v)) = (c :: u2) ++ (t' ++ v) by simp,
            List.take_append_eq_append_take]
          have h0 : t.length - (c :: u2).length = 0 := by omega
          rw [h0]
          simp
        have hdrop : List.drop t.length (c :: (u2 ++ (t' ++ v))) =
            List.drop t.length (c :: u2) ++ (t' ++ v) := by
          rw [show c :: (u2 ++ (t' ++ v)) = (c :: u2) ++ (t' ++ v) by simp]
          exact List.drop_append_of_le_length (le_of_lt hklt)
        have hu3ne : List.drop t.length (c :: u2) ≠ [] := by
          intro hcon
          have h1 := congrArg List.length hcon
          rw [List.length_drop] at h1
          simp at h1
          omega
        have hu3last : (List.drop t.length (c :: u2)).getLast? = some z := by
          rw [← List.take_append_drop t.length (c :: u2), List.getLast?_append] at hzlast
          cases hdl : (List.drop t.length (c :: u2)).getLast? with
          | none =>
            have := List.getLast?_isSome.2 hu3ne
            rw [hdl] at this
            cases this
          | some z2 =>
            rw [hdl] at hzlast
            simpa using hzlast
        have htpos : 0 < t.length := List.length_pos.2 ht
        have hlen2 : (List.drop t.length (c :: u2) ++ t' ++ v).length ≤ n := by
          rw [List.length_append, List.length_append, List.length_drop]
          simp only [List.length_cons, List.length_append] at hlen
          omega
        have hrec := ih (List.drop t.length (c :: u2))
          ((List.take t.length (c :: (u2 ++ (t' ++ v)))).getLast?) hlen2
          (fun hcon => absurd hcon hu3ne)
          (fun z2 hz2 => by
            rw [hu3last] at hz2
            injection hz2 with h
            rw [← h]
            exact hzw)
        simp only [subWordGo]
        rw [if_pos hcond]
        have hX : List.drop t.length (c :: (u2 ++ (t' ++ v))) =
            List.drop t.length (c :: u2) ++ t' ++ v := by
          rw [hdrop, ← List.append_assoc]
        rw [hX]
        obtain ⟨s1, t1, hst⟩ := hrec
        refine ⟨"<mark>".data ++ List.take t.length (c :: (u2 ++ (t' ++ v))) ++
          "</mark>".data ++ s1, t1, ?_⟩
        rw [← hst]
        simp [List.append_assoc]
      · -- no match at this position: consume one character and recurse
        simp only [subWordGo]
        rw [if_neg hcond]
        apply List.infix_cons
        have hb2 : u2 = [] → boundaryOk (some c) = true := by
          intro h
          subst h
          have := hz c (by simp)
          simp [boundaryOk, this]
        have hz2 : ∀ z2, u2.getLast? = some z2 → isWordChar z2 = false := by
          intro z2 hzl
          apply hz
          cases u2 with
          | nil => simp at hzl
          | cons a b =>
            rw [List.getLast?_cons_cons]
            exact hzl
        have hlen2 : (u2 ++ t' ++ v).length ≤ n := by
          rw [List.length_append, List.length_append]
          simp only [List.length_cons, List.length_append] at hlen
          omega
        have := ih u2 (some c) hlen2 hb2 hz2
        simpa [List.append_assoc] using this

/-- One `re.sub` pass over a whole string marks a whole-token occurrence
of its pattern. -/
lemma subWord_marks_occurrence (t t' u v : List Char)
    (ht : t ≠ []) (htl : t.all isLowerAlnum = true)
    (hci : t'.map Char.toLower = t.map Char.toLower)
    (hu : ∀ z, u.getLast? = some z → isWordChar z = false)
    (hv : v = [] ∨ ∃ c cs, v = c :: cs ∧ isWordChar c = false) :
    ("<mark>".data ++ t' ++ "</mark>".data) <:+: subWord t (u ++ t' ++ v) := by
  unfold subWord
  exact subWordGo_marks t t' v ht htl hci hv (u ++ t' ++ v).length u none (le_refl _)
    (fun _ => rfl) hu

lemma mem_insertByLen (x a : Term) (l : List Term) :
    a ∈ insertByLen x l ↔ a = x ∨ a ∈ l := by
  induction l with
  | nil => simp [insertByLen]
  | cons y ys ih =>
    unfold insertByLen
    split
    · simp
    · simp [ih]
      tauto

lemma insertByLen_pairwise (x : Term) (l : List Term)
    (hl : l.Pairwise (fun a b => b.length ≤ a.length)) :
    (insertByLen x l).Pairwise (fun a b => b.length ≤ a.length) := by
  induction l with
  | nil => simp [insertByLen]
  | cons y ys ih =>
    rcases List.pairwise_cons.1 hl with ⟨hy, hys⟩
    unfold insertByLen
    split
    · rename_i hlt
      refine List.pairwise_cons.2 ⟨?_, hl⟩
      intro z hz
      rcases List.mem_cons.1 hz with rfl | hz
      · exact le_of_lt hlt
      · exact le_trans (hy z hz) (le_of_lt hlt)
    · rename_i hnlt
      refine List.pairwise_cons.2 ⟨?_, ih hys⟩
      intro z hz
      rcases (mem_insertByLen x z ys).1 hz with rfl | hz2
      · exact not_lt.1 hnlt
      · exact hy z hz2

lemma sortByLenDesc_pairwise_core :
    ∀ (l acc : List Term), acc.Pairwise (fun a b => b.length ≤ a.length) →
      (l.foldl (fun acc x => insertByLen x acc) acc).Pairwise (fun a b => b.length ≤ a.length) := by
  intro l
  induction l with
  | nil => intro acc h; simpa using h
  | cons x xs ih =>
    intro acc hacc
    rw [List.foldl_cons]
    exact ih _ (insertByLen_pairwise x acc hacc)

/-- C8 (amended): the excerpt window itself never exceeds the configured
width and at most two ellipsis characters are added around the
escaped-and-highlighted core (though escaping and the inserted mark tags
can make the raw output longer); the highlighting loop processes the
deduplicated terms in length-descending order, one substitution pass per
term; and a substitution pass wraps a whole-token case-insensitive
occurrence of its (non-empty, lowercase-alphanumeric) term in mark tags. -/
theorem snippet_bound_and_marking :
    (∀ (text : List Char) (terms : List Term) (width : ℕ),
      ((text.drop (first_hit_span text terms - width / 4)).take
          (min text.length (first_hit_span text terms - width / 4 + width) -
            (first_hit_span text terms - width / 4))).length ≤ width ∧
      (make_snippet text terms width).length ≤
        (highlightAll terms (htmlEscape ((text.drop (first_hit_span text terms - width / 4)).take
          (min text.length (first_hit_span text terms - width / 4 + width) -
            (first_hit_span text terms - width / 4))))).length + 2)
    ∧ (∀ l : List Term,
        (sortByLenDesc l).Pairwise (fun a b => b.length ≤ a.length))
    ∧ (∀ terms s, highlightAll terms s =
        (sortByLenDesc terms.dedup).foldl (fun acc t => subWord t acc) s)
    ∧ (∀ t t' u v : List Char, t ≠ [] → t.all isLowerAlnum = true →
        t'.map Char.toLower = t.map Char.toLower →
        (∀ z, u.getLast? = some z → isWordChar z = false) →
        (v = [] ∨ ∃ c cs, v = c :: cs ∧ isWordChar c = false) →
        ("<mark>".data ++ t' ++ "</mark>".data) <:+: subWord t (u ++ t' ++ v)) := by
  refine ⟨?_, fun l => sortByLenDesc_pairwise_core l [] (by simp), fun terms s => rfl,
    fun t t' u v ht htl hci hu hv => subWord_marks_occurrence t t' u v ht htl hci hu hv⟩
  intro text terms width
  constructor
  · rw [List.length_take]
    have : min text.length (first_hit_span text terms - width / 4 + width) ≤
        first_hit_span text terms - width / 4 + width := min_le_right _ _
    omega
  · show (make_snippet text terms width).length ≤ _
    unfold make_snippet
    rw [List.length_append, List.length_append]
    split <;> split <;> simp <;> omega

/-- Witness for C8's marking part: the pass for the term `apple` wraps
the whole-token occurrence `Apple` in `an Apple, pie`. -/
theorem snippet_marking_witness :
    ("apple".data ≠ ([] : List Char) ∧ "apple".data.all isLowerAlnum = true ∧
      "Apple".data.map Char.toLower = "apple".data.map Char.toLower ∧
      (∀ z, "an ".data.getLast? = some z → isWordChar z = false)) ∧
    ("<mark>".data ++ "Apple".data ++ "</mark>".data) <:+:
      subWord "apple".data ("an ".data ++ "Apple".data ++ ", pie".data) :=
  ⟨⟨by decide, by decide, by decide, by decide⟩,
   snippet_bound_and_marking.2.2.2 "apple".data "Apple".data "an ".data ", pie".data
     (by decide) (by decide) (by decide) (by decide)
     (Or.inr ⟨',', " pie".data, by decide, by decide⟩)⟩

set_option maxRecDepth 8000 in
/-- C8 (counterexample): the claim's output bound and highlight-integrity
both fail.  First, HTML escaping expands the window: 241 ampersands with
width 240 produce a 1201-character output (240 escaped ampersands plus one
ellipsis), far above width + 2.  Second, with query terms `remarkable` and
`mark`, the pass for the shorter substring term `mark` matches the letters
of the previously inserted `<mark>` markup, corrupting the longer term's
highlight. -/
theorem snippet_output_bound_and_highlight_fail :
    ¬ ((make_snippet (List.replicate 241 '&') [] 240).length ≤ 240 + 2) ∧
    make_snippet "The remarkable thing".data ["remarkable".data, "mark".data] 240 =
      "The <<mark>mark</mark>>remarkable</<mark>mark</mark>> thing".data := by
  refine ⟨by decide, by decide⟩

end SearchBox
